import Mathlib

/-!
# Verification of UserName_Gatherer_Generator

A shallow embedding of the two Python modules of the repository,
`username_generator.py` and `input_gatherer.py`, together with proofs
about the variant-generation engine, the work-partitioning step, the
append-only output-file merge, and the checkpoint protocol.

Python strings are modelled as `List Char` (`Str`); Python's `str.lower`,
`str.strip`, `str.isupper` and `str.translate` are modelled characterwise
on the ASCII range, which is the range the program's normalized data
inhabits.  Python `set`s are modelled as `Finset Str` where only
membership matters, and as accumulation lists where insertion order
matters.  The filesystem is modelled as an association list from path to
the list of lines stored in the file.
-/

set_option autoImplicit false

namespace UNG

/-- Python strings, modelled as lists of characters. -/
abbrev Str := List Char

/-- ASCII uppercase test: the characters between A and Z.  Python's
`str.isupper` restricted to the ASCII range that normalized program data
lives in. -/
def isUpperChar (c : Char) : Bool := 65 ≤ c.toNat && c.toNat ≤ 90

/-- Characterwise model of Python `str.lower` on the ASCII range: an
uppercase ASCII letter moves down to its lowercase form, every other
character is unchanged. -/
def lowerChar (c : Char) : Char :=
  if 65 ≤ c.toNat && c.toNat ≤ 90 then Char.ofNat (c.toNat + 32) else c

/-- Model of Python `str.lower`. -/
def pyLower (s : Str) : Str := s.map lowerChar

/-- ASCII whitespace, the characters Python `str.strip` removes from the
data this program handles. -/
def isSpaceChar (c : Char) : Bool :=
  c = ' ' || c = '\t' || c = '\n' || c = '\r' || c = '\x0b' || c = '\x0c'

/-- Model of Python `str.strip`: drop whitespace from both ends. -/
def strip (s : Str) : Str :=
  ((s.dropWhile isSpaceChar).reverse.dropWhile isSpaceChar).reverse

/-- The translation table built by `str.maketrans("aeiost", "431057")` in
both modules: it maps exactly the six lowercase letters, nothing else. -/
def leetTable : List (Char × Char) :=
  [('a', '4'), ('e', '3'), ('i', '1'), ('o', '0'), ('s', '5'), ('t', '7')]

/-- One character under Python `str.translate` with table `t`: the first
matching entry applies, otherwise the character is unchanged. -/
def translateChar (t : List (Char × Char)) (c : Char) : Char :=
  ((t.find? (fun p => p.1 = c)).map Prod.snd).getD c

/-- `to_leet` as written identically in `username_generator.py` line 28
and `input_gatherer.py` line 28:
`text.translate(str.maketrans("aeiost", "431057"))`. -/
def to_leet (s : Str) : Str := s.map (translateChar leetTable)

/-- The leetspeak substitution as the specification words it, restricted
to the six letters the table names, applied to lowercase letters only.
Used to compare `to_leet` with the specified character mapping. -/
def leetSpecChar (c : Char) : Char :=
  if c = 'a' then '4' else if c = 'e' then '3' else if c = 'i' then '1'
  else if c = 'o' then '0' else if c = 's' then '5'
  else if c = 't' then '7' else c

/-- One character of the NFKD decomposition used by `normalize`.  ASCII
characters decompose to themselves; the non-ASCII characters appearing in
this development ('é', and letters such as 'α' or 'ß' that have no
decomposition) are covered; every other character is kept as itself,
which is faithful for characters without a compatibility decomposition. -/
def nfkdChar (c : Char) : Str :=
  if c = 'é' then ['e', '́'] else [c]

/-- Model of `unicodedata.normalize('NFKD', text)` on the characters this
development uses. -/
def nfkd (s : Str) : Str := (s.map nfkdChar).flatten

/-- ASCII test, modelling `.encode('ascii', 'ignore')` which drops every
non-ASCII character. -/
def isAsciiChar (c : Char) : Bool := c.toNat ≤ 127

/-- `normalize` from `username_generator.py` lines 25-26 (identical to
`normalize_unicode` in `input_gatherer.py` lines 23-25):
NFKD-decompose, drop non-ASCII characters, lowercase. -/
def normalize (s : Str) : Str := pyLower ((nfkd s).filter isAsciiChar)

/-- Python string comparison `s < t`: lexicographic by code point. -/
def strLt : Str → Str → Bool
  | [], [] => false
  | [], _ :: _ => true
  | _ :: _, [] => false
  | a :: s, b :: t => if a < b then true else if a = b then strLt s t else false

/-- Strict lexicographic order on (name, surname) pairs. -/
def pairLt (p q : Str × Str) : Bool :=
  strLt p.1 q.1 || (p.1 == q.1 && strLt p.2 q.2)

/-- Reflexive lexicographic order on (name, surname) pairs. -/
def pairLe (p q : Str × Str) : Bool :=
  strLt p.1 q.1 || (p.1 == q.1 && (strLt p.2 q.2 || p.2 == q.2))

/-- Insert a string into an ascending list, keeping it ascending. -/
def insertSorted (x : Str) : List Str → List Str
  | [] => [x]
  | y :: ys => if strLt x y then x :: y :: ys else y :: insertSorted x ys

/-- Model of Python `sorted` on strings: ascending by `strLt`. -/
def sortStr (xs : List Str) : List Str := xs.foldr insertSorted []

/-- `sorted(set(xs))`: the distinct elements in ascending string order. -/
def sortedSet (xs : List Str) : List Str := sortStr xs.dedup

/-! ### Filesystem model

A filesystem is a finite map from path to file content, where a text
file's content is its list of lines (newline separators left
implicit). -/

/-- Filesystem: association list from path to lines of the file. -/
abbrev FS := List (Str × List Str)

/-- The content of the file at `path`, if it exists. -/
def lookupFile (fs : FS) (path : Str) : Option (List Str) :=
  (fs.find? (fun e => e.1 == path)).map Prod.snd

/-- Create or overwrite the file at `path` with lines `ls`. -/
def setFile (fs : FS) (path : Str) (ls : List Str) : FS :=
  (path, ls) :: fs.filter (fun e => !(e.1 == path))

/-! ## `username_generator.py` -/

namespace UG

/-- `SEPARATORS` from `username_generator.py` line 17 (the same list
appears in `input_gatherer.py` line 15). -/
def SEPARATORS : List Str :=
  [".".toList, "_".toList, "-".toList, "~".toList, "".toList,
   "__".toList, "--".toList]

/-- `MAX_LENGTH` from `username_generator.py` line 18. -/
def MAX_LENGTH : Nat := 32

/-- `read_file` from `username_generator.py` lines 21-23: opens the file
(raising `FileNotFoundError`, the `Except.error` case, when it does not
exist) and returns the stripped lowercased non-blank lines. -/
def read_file (fs : FS) (path : Str) : Except Unit (List Str) :=
  match lookupFile fs path with
  | none => Except.error ()
  | some lines =>
      Except.ok ((lines.filter (fun line => strip line ≠ [])).map
        (fun line => pyLower (strip line)))

/-- `format_and_limit` from `username_generator.py` lines 42-43:
`username[:MAX_LENGTH].lower()`. -/
def format_and_limit (username : Str) : Str :=
  pyLower (username.take MAX_LENGTH)

/-- The three category sets built by `generate_usernames`. -/
structure ResultSets where
  formal : Finset Str
  neutral : Finset Str
  gamer : Finset Str
deriving DecidableEq

/-- Pointwise union of result sets; the imperative `set.add` loop of
`generate_usernames` accumulates exactly the union of the contributions
of each `(a, b, sep)` iteration. -/
def ResultSets.union (x y : ResultSets) : ResultSets :=
  ⟨x.formal ∪ y.formal, x.neutral ∪ y.neutral, x.gamer ∪ y.gamer⟩

/-- The initial empty result sets of `generate_usernames` lines 47-51. -/
def ResultSets.empty : ResultSets := ⟨∅, ∅, ∅⟩

/-- The separator classification test of `username_generator.py` line 71:
`"." in sep or sep == ""`. -/
def sepIsFormal (sep : Str) : Prop := '.' ∈ sep ∨ sep = []

instance (sep : Str) : Decidable (sepIsFormal sep) := by
  unfold sepIsFormal; infer_instance

/-- The classification step of `username_generator.py` lines 71-74: the
base string goes into `formal` when the separator contains "." or is
empty, into `neutral` otherwise. -/
def classifyBase (base sep : Str) : ResultSets :=
  if sepIsFormal sep then ⟨{base}, ∅, ∅⟩ else ⟨∅, {base}, ∅⟩

/-- What one iteration of the `for a, b` / `for sep` loops of
`generate_usernames` (lines 68-83) adds to the three sets: the base
string classified by `classifyBase`, one suffixed string per suffix into
`neutral`, and one gamer-style string per suffix into `gamer`. -/
def sepContribution (suffixes : List Str) (a b sep : Str) : ResultSets :=
  let base := format_and_limit (a ++ sep ++ b)
  (classifyBase base sep).union
    ⟨∅,
     (suffixes.map (fun suffix => format_and_limit (base ++ suffix))).toFinset,
     (suffixes.map
       (fun suffix =>
         format_and_limit (sep ++ to_leet a ++ sep ++ suffix ++ sep))).toFinset⟩

/-- `base_variants` from `username_generator.py` lines 57-66, for a
normalized `name` and `surname` with initials `initial_n`, `initial_s`. -/
def base_variants (name surname : Str) (initial_n initial_s : Char) :
    List (Str × Str) :=
  [(name, surname),
   (surname, name),
   ([initial_n], surname),
   (name, [initial_s]),
   ([initial_n], [initial_s]),
   (to_leet name, to_leet surname),
   (name, []),
   (surname, [])]

/-- `generate_usernames` from `username_generator.py` lines 46-85.  The
subscripts `name[0]` and `surname[0]` on line 55 raise `IndexError` when
the normalized string is empty; that failure is the `Except.error` case.
Otherwise the result is the union over all 8 base variants and 7
separators of the per-iteration contributions. -/
def generate_usernames (name surname : Str) (suffixes : List Str) :
    Except Unit ResultSets :=
  match normalize name, normalize surname with
  | [], _ => Except.error ()
  | _ :: _, [] => Except.error ()
  | initial_n :: ntail, initial_s :: stail =>
      let nm := initial_n :: ntail
      let sn := initial_s :: stail
      Except.ok
        (((base_variants nm sn initial_n initial_s).map
            (fun ab =>
              (SEPARATORS.map (sepContribution suffixes ab.1 ab.2)).foldr
                ResultSets.union ResultSets.empty)).foldr
          ResultSets.union ResultSets.empty)

/-- The chunk size of `username_generator.py` line 109 (identical to
`input_gatherer.py` line 203): `max(1, len(names) // num_proc)`. -/
def chunk_size (len num_proc : Nat) : Nat := max 1 (len / num_proc)

/-- Consecutive slices `l[i:i+cs]` for `i = 0, cs, 2*cs, ...`: take a
slice of `cs` elements off the front, recurse on the rest.  The `fuel`
argument is only a structural-recursion bound: since every step consumes
at least one element when `1 ≤ cs`, `fuel = l.length` (what `slices`
passes) always suffices, and the fuel-exhausted branch is unreachable. -/
def slicesF {α : Type} (cs : Nat) : Nat → List α → List (List α)
  | _, [] => []
  | 0, _ :: _ => []
  | fuel + 1, a :: rest =>
      (a :: rest).take cs :: slicesF cs fuel ((a :: rest).drop cs)

/-- The slicing loop `[l[i:i+cs] for i in range(0, len(l), cs)]`; `cs = 0`
never occurs since the caller passes `max(1, _)` (it would be a
`ValueError` in `range`). -/
def slices {α : Type} (l : List α) (cs : Nat) : List (List α) :=
  slicesF cs l.length l

/-- The partitioning step of `username_generator.py` lines 109-110 (the
same two lines appear in `input_gatherer.py` lines 203-204):
`chunks = [names[i:i+chunk_size] for i in range(0, len(names), chunk_size)]`. -/
def chunksOf (names : List Str) (num_proc : Nat) : List (List Str) :=
  slices names (chunk_size names.length num_proc)

/-- The final write of `combine`, `username_generator.py` lines 129-133:
each category's file is opened in "w" mode — truncating whatever it held
— and receives the sorted entries of that category's set (here the set's
elements as a list, collapsed by `dedup`), one per line. -/
def write_category (fs : FS) (path : Str) (entries : List Str) : FS :=
  setFile fs path (sortedSet entries)

end UG

/-! ## `input_gatherer.py` -/

namespace IG

/-- `read_file` from `input_gatherer.py` lines 47-54: a missing file is
first created empty, then read; the returned lines are stripped and
blank lines are dropped (no lowercasing in this module's version). -/
def read_file (fs : FS) (path : Str) : List Str × FS :=
  match lookupFile fs path with
  | none => ([], setFile fs path [])
  | some lines =>
      ((lines.filter (fun line => strip line ≠ [])).map (fun line => strip line),
       fs)

/-- `appendNew` models the loop body of `write_unique_file`
(`input_gatherer.py` lines 174-177): walk the usernames in order, skip
one already in `existing_usernames`, otherwise emit it and add it to the
set. -/
def appendNew (existing : List Str) : List Str → List Str
  | [] => []
  | username :: usernames =>
      if username ∈ existing then appendNew existing usernames
      else username :: appendNew (username :: existing) usernames

/-- `write_unique_file` from `input_gatherer.py` lines 171-177: read the
file's current entries (creating the file when missing), then open the
file in append mode and write every username not already present. -/
def write_unique_file (fs : FS) (filename : Str) (usernames : List Str) : FS :=
  let res := read_file fs filename
  let old := (lookupFile res.2 filename).getD []
  setFile res.2 filename (old ++ appendNew res.1 usernames)

/-- The checkpoint skip test of `input_gatherer.py` line 159:
`name < checkpoint_name or (name == checkpoint_name and surname < checkpoint_surname)`. -/
def skipPair (checkpoint_name checkpoint_surname name surname : Str) : Bool :=
  strLt name checkpoint_name ||
    (name == checkpoint_name && strLt surname checkpoint_surname)

/-- The iteration space of the worker's nested loops (lines 157-158):
every (name, surname) pair, outer loop over the worker's name chunk,
inner loop over the full surname list, both in list order. -/
def pairsOf (names surnames : List Str) : List (Str × Str) :=
  (names.map (fun name => surnames.map (fun surname => (name, surname)))).flatten

/-- Modelled from the spec: `generate_variants`, called at
`input_gatherer.py` line 161, is defined nowhere in the repository (the
other module defines only `generate_usernames`, which `input_gatherer.py`
does not import).  It is modelled as the spec's Variant Expander (§4.3):
normalize both components, form the 8 fixed base pairs, and concatenate
each with each separator, truncated to the maximum length — flattened to
the list of candidate strings the worker accumulates, at an empty suffix
collection since the call site passes no suffixes. -/
def generate_variants (name surname : Str) : List Str :=
  match normalize name, normalize surname with
  | initial_n :: ntail, initial_s :: stail =>
      ((UG.base_variants (initial_n :: ntail) (initial_s :: stail)
          initial_n initial_s).map
        (fun ab =>
          UG.SEPARATORS.map
            (fun sep => UG.format_and_limit (ab.1 ++ sep ++ ab.2)))).flatten
  | _, _ => []

/-- The worker's pair loop, `input_gatherer.py` lines 157-163, with the
variant generator passed as a parameter: for each pair in order, either
skip it by the checkpoint rule, or extend `all_variants` with its
variants and write the pair to the checkpoint.  Returns the sequence of
checkpoint values written (in write order) and the accumulated
`all_variants` list. -/
def workerLoop (checkpoint_name checkpoint_surname : Str)
    (gen : Str → Str → List Str) :
    List (Str × Str) → List (Str × Str) × List Str
  | [] => ([], [])
  | p :: ps =>
      if skipPair checkpoint_name checkpoint_surname p.1 p.2 then
        workerLoop checkpoint_name checkpoint_surname gen ps
      else
        let rest := workerLoop checkpoint_name checkpoint_surname gen ps
        (p :: rest.1, gen p.1 p.2 ++ rest.2)

/-- The worker's pair loop as the source actually runs, where the name
`generate_variants` is unresolved: the first pair that is not skipped by
the checkpoint rule raises `NameError` (the `Except.error` case) before
any checkpoint write; the loop completes only if every pair is skipped. -/
def workerLoopE (checkpoint_name checkpoint_surname : Str) :
    List (Str × Str) → Except Unit Unit
  | [] => Except.ok ()
  | p :: ps =>
      if skipPair checkpoint_name checkpoint_surname p.1 p.2 then
        workerLoopE checkpoint_name checkpoint_surname ps
      else Except.error ()

/-- `sorted(set(all_variants))` of `input_gatherer.py` line 166. -/
def sortedUnique (xs : List Str) : List Str := sortedSet xs

/-- Path of the formal output file,
`os.path.join(OUTPUT_DIR, "formal_usernames.txt")`. -/
def formalPath : Str := "./output_files/formal_usernames.txt".toList

/-- Path of the gamer output file,
`os.path.join(OUTPUT_DIR, "gamer_usernames.txt")`. -/
def gamerPath : Str := "./output_files/gamer_usernames.txt".toList

/-- The worker's state while it is still inside the pair loop, after the
first `k` of its pairs have been handled (`input_gatherer.py` lines
154-163): the filesystem's output files are untouched — the only write
inside the loop is `write_checkpoint` — and the checkpoint file has
received exactly the non-skipped pairs of the processed prefix, in
order.  Output files are written only after the loop, lines 165-184. -/
def workerMid (fs : FS) (names surnames : List Str)
    (checkpoint_name checkpoint_surname : Str) (k : Nat) :
    FS × List (Str × Str) :=
  (fs,
   (workerLoop checkpoint_name checkpoint_surname generate_variants
      ((pairsOf names surnames).take k)).1)

/-- The whole worker body, `input_gatherer.py` lines 154-184, with the
spec-modelled `generate_variants`: run the pair loop, deduplicate and
sort the accumulated variants, split them on containing "." into formal
and gamer lists, and merge each list into its output file. -/
def worker (fs : FS) (names surnames : List Str)
    (checkpoint_name checkpoint_surname : Str) : FS :=
  let lp := workerLoop checkpoint_name checkpoint_surname generate_variants
    (pairsOf names surnames)
  let all_variants := sortedUnique lp.2
  let formal_usernames := all_variants.filter (fun v => '.' ∈ v)
  let gamer_usernames := all_variants.filter (fun v => ¬ ('.' ∈ v))
  write_unique_file (write_unique_file fs formalPath formal_usernames)
    gamerPath gamer_usernames

end IG

/-! ## Helper lemmas -/

/-- `Char.ofNat` at a valid codepoint round-trips through `Char.toNat`. -/
theorem toNat_ofNat_valid (n : Nat) (h : Nat.isValidChar n) :
    (Char.ofNat n).toNat = n := by
  unfold Char.ofNat Char.ofNatAux
  rw [dif_pos h]
  simp [Char.toNat, UInt32.toNat]

/-- Lowering a character never yields an uppercase character. -/
theorem isUpperChar_lowerChar (c : Char) : isUpperChar (lowerChar c) = false := by
  unfold lowerChar isUpperChar
  by_cases h : 65 ≤ c.toNat && c.toNat ≤ 90
  · simp only [h, if_true]
    have hb : 65 ≤ c.toNat ∧ c.toNat ≤ 90 := by simpa using h
    have hv : Nat.isValidChar (c.toNat + 32) := Or.inl (by omega)
    rw [toNat_ofNat_valid _ hv]
    simp
    omega
  · simp only [h, if_false]
    simpa using h

/-- The `maketrans` table lookup agrees with the six-way case split of
the specification's character mapping. -/
theorem translateChar_leetTable (c : Char) :
    translateChar leetTable c = leetSpecChar c := by
  by_cases h1 : c = 'a'
  · subst h1; rfl
  by_cases h2 : c = 'e'
  · subst h2; rfl
  by_cases h3 : c = 'i'
  · subst h3; rfl
  by_cases h4 : c = 'o'
  · subst h4; rfl
  by_cases h5 : c = 's'
  · subst h5; rfl
  by_cases h6 : c = 't'
  · subst h6; rfl
  have hfind : leetTable.find? (fun p => p.1 = c) = none := by
    rw [List.find?_eq_none]
    intro x hx
    fin_cases hx <;>
      simp only [decide_eq_true_eq] <;>
      intro hc <;> [exact h1 hc.symm; exact h2 hc.symm; exact h3 hc.symm;
        exact h4 hc.symm; exact h5 hc.symm; exact h6 hc.symm]
  simp [translateChar, hfind, leetSpecChar, h1, h2, h3, h4, h5, h6]

/-! ## Claim theorems -/

/-- C7 (counterexample): `to_leet` is case-sensitive — it leaves the
uppercase letter "A" unchanged instead of replacing it with "4", and the
output contains an uppercase character. -/
theorem to_leet_uppercase_unchanged :
    to_leet ("A".toList) = "A".toList ∧
    to_leet ("A".toList) ≠ "4".toList ∧
    isUpperChar 'A' = true := by decide

/-- C7 (amended): the leetspeak transform replaces each occurrence of the
lowercase letters a, e, i, o, s, t by 4, 3, 1, 0, 5, 7 respectively and
leaves every other character — uppercase letters included — in place. -/
theorem to_leet_matches_table (s : Str) :
    to_leet s = s.map leetSpecChar ∧
    (∀ c : Char, c ≠ 'a' → c ≠ 'e' → c ≠ 'i' → c ≠ 'o' → c ≠ 's' →
      c ≠ 't' → leetSpecChar c = c) := by
  constructor
  · unfold to_leet
    exact List.map_congr_left (fun c _ => translateChar_leetTable c)
  · intro c h1 h2 h3 h4 h5 h6
    simp [leetSpecChar, h1, h2, h3, h4, h5, h6]

/-- Witness for C7's amended theorem at a concrete string: the uppercase
T survives, the lowercase letters are substituted. -/
theorem to_leet_matches_table_witness :
    to_leet ("Test".toList) = "T357".toList := by
  rw [(to_leet_matches_table ("Test".toList)).1]
  decide

/-- C9: `generate_usernames` succeeds exactly when both normalized inputs
are nonempty — the initial extraction `name[0]`, `surname[0]` fails
otherwise — and a non-empty input of non-ASCII characters (here "α")
normalizes to the empty string and makes the call fail. -/
theorem generate_usernames_totality :
    (∀ (name surname : Str) (suffixes : List Str),
        (∃ r, UG.generate_usernames name surname suffixes = Except.ok r) ↔
          (normalize name ≠ [] ∧ normalize surname ≠ [])) ∧
    "α".toList ≠ [] ∧ normalize ("α".toList) = [] ∧
    UG.generate_usernames ("α".toList) ("Doe".toList) [] = Except.error () := by
  refine ⟨?_, by decide, by decide, ?_⟩
  · intro name surname suffixes
    unfold UG.generate_usernames
    rcases hn : normalize name with _ | ⟨n0, nt⟩ <;>
      rcases hs : normalize surname with _ | ⟨s0, st⟩ <;>
      simp [hn, hs]
  · have hα : normalize ("α".toList) = [] := by decide
    unfold UG.generate_usernames
    rw [hα]

/-- C10: the worker loop, in which the unresolved name
`generate_variants` raises on the first pair not skipped by the
checkpoint rule, completes successfully if and only if every pair of its
chunk × surnames iteration space is skipped. -/
theorem workerLoopE_ok_iff (names surnames : List Str)
    (checkpoint_name checkpoint_surname : Str) :
    IG.workerLoopE checkpoint_name checkpoint_surname
        (IG.pairsOf names surnames) = Except.ok () ↔
      ∀ p ∈ IG.pairsOf names surnames,
        IG.skipPair checkpoint_name checkpoint_surname p.1 p.2 = true := by
  generalize IG.pairsOf names surnames = ps
  induction ps with
  | nil => simp [IG.workerLoopE]
  | cons p ps ih =>
      by_cases h : IG.skipPair checkpoint_name checkpoint_surname p.1 p.2
      · simp [IG.workerLoopE, h, ih]
      · simp [IG.workerLoopE, h]

/-- C6 (counterexample): the `read_file` of `username_generator.py` does
not tolerate a missing file — on a path that does not exist it raises
`FileNotFoundError` instead of returning the empty list. -/
theorem ug_read_file_missing_fails :
    UG.read_file ([] : FS) ("./input/names.txt".toList) = Except.error () := rfl

/-- C6 (amended): the `read_file` of `input_gatherer.py` returns the
empty list on a missing path, after creating an empty file there; the
`read_file` of `username_generator.py` instead fails on a missing path
(see the counterexample). -/
theorem ig_read_file_missing (fs : FS) (path : Str)
    (h : lookupFile fs path = none) :
    IG.read_file fs path = ([], setFile fs path []) ∧
      lookupFile (setFile fs path []) path = some [] := by
  constructor
  · unfold IG.read_file
    rw [h]
  · simp [lookupFile, setFile]

/-- Witness for C6's amended theorem on the empty filesystem. -/
theorem ig_read_file_missing_witness :
    lookupFile ([] : FS) ("./names.txt".toList) = none ∧
      (IG.read_file ([] : FS) ("./names.txt".toList) =
          ([], setFile [] ("./names.txt".toList) []) ∧
        lookupFile (setFile [] ("./names.txt".toList) [])
          ("./names.txt".toList) = some []) :=
  ⟨rfl, ig_read_file_missing [] ("./names.txt".toList) rfl⟩

/-- C1: the worker advances the checkpoint past pairs whose variants are
not yet persisted.  Mid-run, after its first two pairs (names
["a","b"] × surnames ["x","y"], empty checkpoint, empty filesystem), the
checkpoint already holds ("a","y"), the pair ("a","x") is strictly
before it and has a generated variant "a.x", yet the filesystem is still
empty — no output file exists, so nothing is reflected in output.  The
worker only writes output files after its whole pair loop (lines
165-184), so the spec's invariant fails at every mid-loop point. -/
theorem checkpoint_ahead_of_persistence :
    (IG.workerMid [] [("a".toList), ("b".toList)]
        [("x".toList), ("y".toList)] [] [] 2).2.getLast? =
      some ("a".toList, "y".toList) ∧
    pairLt ("a".toList, "x".toList) ("a".toList, "y".toList) = true ∧
    "a.x".toList ∈ IG.generate_variants ("a".toList) ("x".toList) ∧
    (IG.workerMid [] [("a".toList), ("b".toList)]
        [("x".toList), ("y".toList)] [] [] 2).1 = ([] : FS) := by
  decide

/-- C8 (counterexample): with an unsorted surname list the successive
checkpoint writes decrease — surnames ["b","a"] for the single name "n"
produce the write sequence ("n","b"), ("n","a"). -/
theorem checkpoint_not_monotone :
    (IG.workerLoop [] [] IG.generate_variants
        (IG.pairsOf [("n".toList)] [("b".toList), ("a".toList)])).1 =
      [("n".toList, "b".toList), ("n".toList, "a".toList)] ∧
    pairLe ("n".toList, "b".toList) ("n".toList, "a".toList) = false := by
  decide

/-- C4 (counterexample): five names split for two workers yield chunk
size `max(1, 5 // 2) = 2`, hence three chunks — more than the worker
count — and the non-final chunks have size 2, not `ceil(5/2) = 3`. -/
theorem chunksOf_not_ceil :
    (UG.chunksOf [("a".toList), ("b".toList), ("c".toList), ("d".toList),
        ("e".toList)] 2).length = 3 ∧
    ¬((UG.chunksOf [("a".toList), ("b".toList), ("c".toList), ("d".toList),
        ("e".toList)] 2).length ≤ 2) ∧
    ((UG.chunksOf [("a".toList), ("b".toList), ("c".toList), ("d".toList),
        ("e".toList)] 2).headD []).length ≠ (5 + 2 - 1) / 2 := by
  decide

/-- With enough fuel and a positive chunk size, the slices flatten back
to the original list. -/
theorem slicesF_flatten {α : Type} (cs : Nat) (hcs : 1 ≤ cs) (fuel : Nat) :
    ∀ l : List α, l.length ≤ fuel → (UG.slicesF cs fuel l).flatten = l := by
  induction fuel with
  | zero =>
      intro l hl
      have : l = [] := List.eq_nil_of_length_eq_zero (by omega)
      subst this
      simp [UG.slicesF]
  | succ n ih =>
      intro l hl
      cases l with
      | nil => simp [UG.slicesF]
      | cons a rest =>
          simp only [UG.slicesF, List.flatten_cons]
          rw [ih _ (by simp only [List.length_drop, List.length_cons] at hl ⊢; omega)]
          exact List.take_append_drop _ _

/-- With enough fuel, every slice has at most `cs` elements and is
nonempty. -/
theorem slicesF_sizes {α : Type} (cs : Nat) (hcs : 1 ≤ cs) (fuel : Nat) :
    ∀ l : List α, l.length ≤ fuel →
      ∀ c ∈ UG.slicesF cs fuel l, c.length ≤ cs ∧ c ≠ [] := by
  induction fuel with
  | zero =>
      intro l hl
      have : l = [] := List.eq_nil_of_length_eq_zero (by omega)
      subst this
      simp [UG.slicesF]
  | succ n ih =>
      intro l hl c hc
      cases l with
      | nil => simp [UG.slicesF] at hc
      | cons a rest =>
          simp only [UG.slicesF, List.mem_cons] at hc
          rcases hc with rfl | hc
          · constructor
            · simp [List.length_take]
            · simp [List.take_eq_nil_iff]
              omega
          · exact ih _ (by simp only [List.length_drop, List.length_cons] at hl ⊢; omega) c hc

/-- With enough fuel and a positive chunk size, `slicesF` returns no
slices only for the empty list. -/
theorem slicesF_eq_nil_iff {α : Type} (cs : Nat) (fuel : Nat) (l : List α)
    (hl : l.length ≤ fuel) : UG.slicesF cs fuel l = [] ↔ l = [] := by
  cases l with
  | nil => simp [UG.slicesF]
  | cons a rest =>
      cases fuel with
      | zero => simp at hl
      | succ n => simp [UG.slicesF]

/-- With enough fuel, every slice except possibly the last has exactly
`cs` elements. -/
theorem slicesF_dropLast {α : Type} (cs : Nat) (hcs : 1 ≤ cs) (fuel : Nat) :
    ∀ l : List α, l.length ≤ fuel →
      ∀ c ∈ (UG.slicesF cs fuel l).dropLast, c.length = cs := by
  induction fuel with
  | zero =>
      intro l hl
      have : l = [] := List.eq_nil_of_length_eq_zero (by omega)
      subst this
      simp [UG.slicesF]
  | succ n ih =>
      intro l hl c hc
      cases l with
      | nil => simp [UG.slicesF] at hc
      | cons a rest =>
          simp only [UG.slicesF] at hc
          rcases hrest : UG.slicesF cs n ((a :: rest).drop cs) with _ | ⟨r0, rs⟩
          · rw [hrest] at hc
            simp at hc
          · rw [hrest] at hc
            rw [List.dropLast_cons₂] at hc
            rcases List.mem_cons.mp hc with rfl | hc
            · have hne : (a :: rest).drop cs ≠ [] := by
                intro hnil
                rw [hnil] at hrest
                simp [UG.slicesF] at hrest
              have hlen : cs < (a :: rest).length := by
                by_contra hcon
                exact hne (List.drop_eq_nil_of_le (by omega))
              simp only [List.length_take, List.length_cons] at hlen ⊢
              omega
            · rw [← hrest] at hc
              exact ih _ (by simp only [List.length_drop, List.length_cons] at hl ⊢; omega) c hc

/-- C4 (amended): for every name list and worker count ≥ 1 the
partitioning yields contiguous, non-overlapping chunks whose in-order
concatenation is the original list; every chunk except possibly the last
has size exactly `max(1, len(names) // workerCount)` — the floor-based
chunk size the code computes, not the ceiling — every chunk is nonempty
and no larger than that size, and (per the counterexample) the number of
chunks may exceed the worker count. -/
theorem chunksOf_partition (names : List Str) (num_proc : Nat)
    (_h : 1 ≤ num_proc) :
    (UG.chunksOf names num_proc).flatten = names ∧
    (∀ c ∈ (UG.chunksOf names num_proc).dropLast,
        c.length = UG.chunk_size names.length num_proc) ∧
    (∀ c ∈ UG.chunksOf names num_proc,
        c.length ≤ UG.chunk_size names.length num_proc ∧ c ≠ []) := by
  have hcs : 1 ≤ UG.chunk_size names.length num_proc := le_max_left _ _
  refine ⟨?_, ?_, ?_⟩
  · exact slicesF_flatten _ hcs _ names le_rfl
  · exact slicesF_dropLast _ hcs _ names le_rfl
  · exact slicesF_sizes _ hcs _ names le_rfl

/-- Witness for C4's amended theorem: three names for two workers give
chunk size `max(1, 3 // 2) = 1` and chunks [["a"], ["b"], ["c"]]. -/
theorem chunksOf_partition_witness :
    (1 ≤ 2) ∧
    ((UG.chunksOf [("a".toList), ("b".toList), ("c".toList)] 2).flatten =
        [("a".toList), ("b".toList), ("c".toList)] ∧
      (∀ c ∈ (UG.chunksOf [("a".toList), ("b".toList), ("c".toList)] 2).dropLast,
          c.length = UG.chunk_size 3 2) ∧
      (∀ c ∈ UG.chunksOf [("a".toList), ("b".toList), ("c".toList)] 2,
          c.length ≤ UG.chunk_size 3 2 ∧ c ≠ [])) :=
  ⟨by decide, chunksOf_partition [("a".toList), ("b".toList), ("c".toList)] 2 (by decide)⟩


/-- Membership in a projection of a fold of `ResultSets.union`
corresponds to membership in the projection of some list element. -/
theorem mem_foldr_union (f : UG.ResultSets → Finset Str)
    (hf : ∀ x y, f (x.union y) = f x ∪ f y)
    (he : f UG.ResultSets.empty = ∅)
    (l : List UG.ResultSets) (s : Str) :
    s ∈ f (l.foldr UG.ResultSets.union UG.ResultSets.empty) ↔
      ∃ r ∈ l, s ∈ f r := by
  induction l with
  | nil => simp [he]
  | cons x xs ih =>
      rw [List.foldr_cons, hf]
      simp [Finset.mem_union, ih]

/-- Every string in any of the three sets of a single-iteration
contribution is the truncation of some string. -/
theorem sepContribution_strings (suffixes : List Str) (a b sep s : Str)
    (h : s ∈ (UG.sepContribution suffixes a b sep).formal ∨
      s ∈ (UG.sepContribution suffixes a b sep).neutral ∨
      s ∈ (UG.sepContribution suffixes a b sep).gamer) :
    ∃ u, s = UG.format_and_limit u := by
  unfold UG.sepContribution UG.classifyBase UG.ResultSets.union at h
  by_cases hf : UG.sepIsFormal sep <;>
    simp only [hf, if_true, if_false, Finset.mem_union, Finset.mem_singleton,
      Finset.not_mem_empty, List.mem_toFinset, List.mem_map, false_or,
      or_false] at h <;>
    aesop

/-- A truncated-and-lowercased string has at most `MAX_LENGTH`
characters. -/
theorem format_and_limit_length (u : Str) :
    (UG.format_and_limit u).length ≤ UG.MAX_LENGTH := by
  unfold UG.format_and_limit pyLower
  rw [List.length_map, List.length_take]
  exact min_le_left _ _

/-- A truncated-and-lowercased string contains no uppercase character. -/
theorem format_and_limit_not_upper (u : Str) :
    ∀ c ∈ UG.format_and_limit u, isUpperChar c = false := by
  intro c hc
  unfold UG.format_and_limit pyLower at hc
  rcases List.mem_map.mp hc with ⟨d, _, rfl⟩
  exact isUpperChar_lowerChar d

/-- On success, the result of `generate_usernames` is the fold of the
per-iteration contributions over all base variants and separators. -/
theorem generate_usernames_ok (name surname : Str) (suffixes : List Str)
    (r : UG.ResultSets) (n0 s0 : Char) (nt st : Str)
    (hn : normalize name = n0 :: nt) (hs : normalize surname = s0 :: st)
    (h : UG.generate_usernames name surname suffixes = Except.ok r) :
    r = ((UG.base_variants (n0 :: nt) (s0 :: st) n0 s0).map
        (fun ab =>
          (UG.SEPARATORS.map (UG.sepContribution suffixes ab.1 ab.2)).foldr
            UG.ResultSets.union UG.ResultSets.empty)).foldr
      UG.ResultSets.union UG.ResultSets.empty := by
  unfold UG.generate_usernames at h
  rw [hn, hs] at h
  exact (Except.ok.inj h).symm

/-- C2: on every input on which `generate_usernames` returns, every
string in each of the three returned category sets has length at most 32
and contains no uppercase character. -/
theorem generate_usernames_bounded_lowercase (name surname : Str)
    (suffixes : List Str) (r : UG.ResultSets)
    (h : UG.generate_usernames name surname suffixes = Except.ok r)
    (s : Str)
    (hs : s ∈ r.formal ∨ s ∈ r.neutral ∨ s ∈ r.gamer) :
    s.length ≤ 32 ∧ ∀ c ∈ s, isUpperChar c = false := by
  have hexists : ∃ u, s = UG.format_and_limit u := by
    rcases hn : normalize name with _ | ⟨n0, nt⟩ <;>
      rcases hsn : normalize surname with _ | ⟨s0, st⟩ <;>
      [skip; skip; skip; skip] <;>
      first
      | (exfalso
         unfold UG.generate_usernames at h
         rw [hn, hsn] at h
         exact Except.noConfusion h)
      | (rw [generate_usernames_ok name surname suffixes r _ _ _ _ hn hsn h] at hs
         rcases hs with hmem | hmem | hmem <;>
         · rcases (mem_foldr_union _ (fun x y => rfl) rfl _ _).mp hmem with
             ⟨rr, hrr, hsrr⟩
           rcases List.mem_map.mp hrr with ⟨ab, _, rfl⟩
           rcases (mem_foldr_union _ (fun x y => rfl) rfl _ _).mp hsrr with
             ⟨rc, hrc, hsrc⟩
           rcases List.mem_map.mp hrc with ⟨sep, _, rfl⟩
           exact sepContribution_strings suffixes ab.1 ab.2 sep s
             (by tauto))
  rcases hexists with ⟨u, rfl⟩
  exact ⟨format_and_limit_length u, format_and_limit_not_upper u⟩



/-- Witness for C2 at name "Jane", surname "Doe", no suffixes: the
generated string "jane.doe" obeys the bound. -/
theorem generate_usernames_bounded_lowercase_witness :
    ("jane.doe".toList).length ≤ 32 ∧
      ∀ c ∈ ("jane.doe".toList), isUpperChar c = false :=
  generate_usernames_bounded_lowercase ("Jane".toList) ("Doe".toList) []
    ((UG.generate_usernames ("Jane".toList) ("Doe".toList)
        []).toOption.getD UG.ResultSets.empty)
    rfl ("jane.doe".toList) (by decide)

/-- C3: for every base variant pair and separator, the classification
step adds the truncated base string to `formal` exactly when the
separator contains "." or is empty, and otherwise adds it to `neutral`;
accordingly the base string lands in the returned formal (resp. neutral)
set. -/
theorem generate_usernames_base_classification (name surname : Str)
    (suffixes : List Str) (r : UG.ResultSets) (n0 s0 : Char) (nt st : Str)
    (hn : normalize name = n0 :: nt) (hs : normalize surname = s0 :: st)
    (h : UG.generate_usernames name surname suffixes = Except.ok r)
    (ab : Str × Str)
    (hab : ab ∈ UG.base_variants (n0 :: nt) (s0 :: st) n0 s0)
    (sep : Str) (hsep : sep ∈ UG.SEPARATORS) :
    (UG.format_and_limit (ab.1 ++ sep ++ ab.2) ∈
        (UG.classifyBase (UG.format_and_limit (ab.1 ++ sep ++ ab.2)) sep).formal
      ↔ UG.sepIsFormal sep) ∧
    (UG.format_and_limit (ab.1 ++ sep ++ ab.2) ∈
        (UG.classifyBase (UG.format_and_limit (ab.1 ++ sep ++ ab.2)) sep).neutral
      ↔ ¬ UG.sepIsFormal sep) ∧
    (UG.sepIsFormal sep →
      UG.format_and_limit (ab.1 ++ sep ++ ab.2) ∈ r.formal) ∧
    (¬ UG.sepIsFormal sep →
      UG.format_and_limit (ab.1 ++ sep ++ ab.2) ∈ r.neutral) := by
  have hr := generate_usernames_ok name surname suffixes r n0 s0 nt st hn hs h
  subst hr
  refine ⟨?_, ?_, ?_, ?_⟩
  · unfold UG.classifyBase
    by_cases hf : UG.sepIsFormal sep <;> simp [hf]
  · unfold UG.classifyBase
    by_cases hf : UG.sepIsFormal sep <;> simp [hf]
  · intro hf
    apply (mem_foldr_union (fun t => t.formal) (fun x y => rfl) rfl _ _).mpr
    refine ⟨_, List.mem_map_of_mem _ hab, ?_⟩
    apply (mem_foldr_union (fun t => t.formal) (fun x y => rfl) rfl _ _).mpr
    refine ⟨_, List.mem_map_of_mem _ hsep, ?_⟩
    unfold UG.sepContribution UG.classifyBase UG.ResultSets.union
    simp [hf]
  · intro hf
    apply (mem_foldr_union (fun t => t.neutral) (fun x y => rfl) rfl _ _).mpr
    refine ⟨_, List.mem_map_of_mem _ hab, ?_⟩
    apply (mem_foldr_union (fun t => t.neutral) (fun x y => rfl) rfl _ _).mpr
    refine ⟨_, List.mem_map_of_mem _ hsep, ?_⟩
    unfold UG.sepContribution UG.classifyBase UG.ResultSets.union
    simp [hf]

/-- Witness for C3 at name "Jane", surname "Doe", base pair
("jane","doe"), separator ".": the base string "jane.doe" lands in the
returned formal set. -/
theorem generate_usernames_base_classification_witness :
    "jane.doe".toList ∈
      ((UG.generate_usernames ("Jane".toList) ("Doe".toList)
          []).toOption.getD UG.ResultSets.empty).formal := by
  have h := generate_usernames_base_classification ("Jane".toList)
    ("Doe".toList) []
    ((UG.generate_usernames ("Jane".toList) ("Doe".toList)
        []).toOption.getD UG.ResultSets.empty)
    'j' 'd' ("ane".toList) ("oe".toList) (by decide) (by decide) rfl
    (("jane".toList, "doe".toList)) (by decide) (".".toList) (by decide)
  have hform : UG.sepIsFormal (".".toList) := by decide
  have hmem := h.2.2.1 hform
  have heq : UG.format_and_limit ("jane".toList ++ ".".toList ++ "doe".toList) =
      "jane.doe".toList := by decide
  rw [heq] at hmem
  exact hmem



/-- Looking up the file just written returns what was written. -/
theorem lookupFile_setFile_self (fs : FS) (path : Str) (ls : List Str) :
    lookupFile (setFile fs path ls) path = some ls := by
  simp [lookupFile, setFile]

/-- Overwriting a file twice keeps only the last write. -/
theorem setFile_setFile (fs : FS) (path : Str) (a b : List Str) :
    setFile (setFile fs path a) path b = setFile fs path b := by
  simp only [setFile, List.filter_cons]
  simp [List.filter_filter]

/-- Whatever `appendNew` emits comes from the usernames and was not in
the existing set. -/
theorem mem_appendNew (l : Str) :
    ∀ (usernames existing : List Str), l ∈ IG.appendNew existing usernames →
      l ∈ usernames ∧ l ∉ existing := by
  intro us
  induction us with
  | nil =>
      intro ex h
      simp [IG.appendNew] at h
  | cons u us ih =>
      intro ex h
      unfold IG.appendNew at h
      by_cases hu : u ∈ ex
      · rw [if_pos hu] at h
        rcases ih ex h with ⟨h1, h2⟩
        exact ⟨List.mem_cons_of_mem _ h1, h2⟩
      · rw [if_neg hu] at h
        rcases List.mem_cons.mp h with rfl | h
        · exact ⟨List.mem_cons_self _ _, hu⟩
        · rcases ih _ h with ⟨h1, h2⟩
          exact ⟨List.mem_cons_of_mem _ h1,
            fun hl => h2 (List.mem_cons_of_mem _ hl)⟩

/-- Every username ends up either already existing or emitted. -/
theorem appendNew_covered (u : Str) :
    ∀ (usernames existing : List Str), u ∈ usernames →
      u ∈ existing ∨ u ∈ IG.appendNew existing usernames := by
  intro us
  induction us with
  | nil =>
      intro ex h
      simp at h
  | cons v us ih =>
      intro ex h
      unfold IG.appendNew
      by_cases hv : v ∈ ex
      · rw [if_pos hv]
        rcases List.mem_cons.mp h with rfl | h
        · exact Or.inl hv
        · exact ih ex h
      · rw [if_neg hv]
        rcases List.mem_cons.mp h with rfl | h
        · exact Or.inr (List.mem_cons_self _ _)
        · rcases ih (v :: ex) h with hex | happ
          · rcases List.mem_cons.mp hex with rfl | hex
            · exact Or.inr (List.mem_cons_self _ _)
            · exact Or.inl hex
          · exact Or.inr (List.mem_cons_of_mem _ happ)

/-- When every username is already present, nothing is appended. -/
theorem appendNew_eq_nil :
    ∀ (usernames existing : List Str), (∀ u ∈ usernames, u ∈ existing) →
      IG.appendNew existing usernames = [] := by
  intro us
  induction us with
  | nil => intro ex _; rfl
  | cons v us ih =>
      intro ex h
      unfold IG.appendNew
      rw [if_pos (h v (List.mem_cons_self _ _))]
      exact ih ex (fun u hu => h u (List.mem_cons_of_mem _ hu))

/-- A clean (stripped, nonempty) line of a file survives the read-side
strip-and-filter. -/
theorem mem_stripFiltered (lines : List Str) (l : Str) (hl : strip l = l)
    (hne : l ≠ []) (h : l ∈ lines) :
    l ∈ (lines.filter (fun line => strip line ≠ [])).map
      (fun line => strip line) := by
  apply List.mem_map.mpr
  exact ⟨l, List.mem_filter.mpr ⟨h, by simp [hl, hne]⟩, hl⟩

/-- Stripping a list of clean strings leaves it unchanged. -/
theorem map_strip_clean :
    ∀ l : List Str, (∀ u ∈ l, strip u = u) →
      l.map (fun line => strip line) = l := by
  intro l
  induction l with
  | nil => intro _; rfl
  | cons u us ih =>
      intro h
      simp only [List.map_cons]
      rw [h u (List.mem_cons_self _ _),
        ih (fun v hv => h v (List.mem_cons_of_mem _ hv))]

/-- The read-side strip-and-filter leaves a list of clean strings
unchanged. -/
theorem stripFiltered_clean (app : List Str)
    (happ : ∀ u ∈ app, strip u = u ∧ u ≠ []) :
    (app.filter (fun line => strip line ≠ [])).map
        (fun line => strip line) = app := by
  rw [List.filter_eq_self.mpr
    (fun u hu => by simp [(happ u hu).1, (happ u hu).2])]
  exact map_strip_clean app (fun u hu => (happ u hu).1)

/-- Reading after appending clean strings sees the old read plus exactly
those strings. -/
theorem stripFiltered_append_clean (old app : List Str)
    (happ : ∀ u ∈ app, strip u = u ∧ u ≠ []) :
    ((old ++ app).filter (fun line => strip line ≠ [])).map
        (fun line => strip line) =
      ((old.filter (fun line => strip line ≠ [])).map
        (fun line => strip line)) ++ app := by
  rw [List.filter_append, List.map_append, stripFiltered_clean app happ]

/-- Evaluating `write_unique_file` on a missing file: the file is created
and receives exactly the deduplicated usernames. -/
theorem write_unique_file_of_missing (fs : FS) (filename : Str)
    (usernames : List Str) (h : lookupFile fs filename = none) :
    IG.write_unique_file fs filename usernames =
      setFile fs filename (IG.appendNew [] usernames) := by
  unfold IG.write_unique_file IG.read_file
  rw [h]
  simp [lookupFile_setFile_self, setFile_setFile]

/-- Evaluating `write_unique_file` on an existing file: its raw content
is kept and the new lines are appended after it. -/
theorem write_unique_file_of_found (fs : FS) (filename : Str)
    (usernames content : List Str)
    (h : lookupFile fs filename = some content) :
    IG.write_unique_file fs filename usernames =
      setFile fs filename (content ++
        IG.appendNew ((content.filter (fun line => strip line ≠ [])).map
          (fun line => strip line)) usernames) := by
  unfold IG.write_unique_file IG.read_file
  rw [h]
  simp [h]

/-- C5 (counterexample): the final write of `username_generator.combine`
(lines 129-133), which the claim also cites, opens the category file in
"w" mode: a line already present in the file but not among the current
entries is destroyed, so that cited write does not preserve existing
lines. -/
theorem combine_write_truncates :
    lookupFile [(("./output/formal.txt".toList), [("old".toList)])]
        ("./output/formal.txt".toList) = some [("old".toList)] ∧
    lookupFile (UG.write_category
        [(("./output/formal.txt".toList), [("old".toList)])]
        ("./output/formal.txt".toList) [("new".toList)])
        ("./output/formal.txt".toList) = some [("new".toList)] ∧
    ("old".toList) ∉ [("new".toList)] := by decide

/-- C5 (amended): `input_gatherer`'s `write_unique_file` — merging a list
of clean result strings into a category file — preserves every line
already in the file, appends only lines not already present, and doing
the same merge a second time changes nothing; `username_generator`'s
`combine` write, also cited by the claim, instead truncates the file
(see the counterexample). -/
theorem write_unique_file_merge (fs : FS) (filename : Str)
    (usernames : List Str)
    (hclean : ∀ u ∈ usernames, strip u = u ∧ u ≠ []) :
    (∃ t, lookupFile (IG.write_unique_file fs filename usernames) filename =
        some ((lookupFile fs filename).getD [] ++ t) ∧
        ∀ l ∈ t, l ∉ (lookupFile fs filename).getD []) ∧
    IG.write_unique_file (IG.write_unique_file fs filename usernames)
        filename usernames =
      IG.write_unique_file fs filename usernames := by
  rcases hfs : lookupFile fs filename with _ | lines
  · have hw := write_unique_file_of_missing fs filename usernames hfs
    have happmem : ∀ l ∈ IG.appendNew [] usernames,
        strip l = l ∧ l ≠ [] :=
      fun l hl => hclean l (mem_appendNew l usernames [] hl).1
    have hcov : ∀ u ∈ usernames, u ∈ IG.appendNew [] usernames :=
      fun u hu =>
        (appendNew_covered u usernames [] hu).resolve_left (by simp)
    constructor
    · refine ⟨IG.appendNew [] usernames, ?_, ?_⟩
      · rw [hw, lookupFile_setFile_self]
        simp
      · intro l _
        simp
    · rw [hw]
      rw [write_unique_file_of_found (setFile fs filename
          (IG.appendNew [] usernames)) filename usernames
          (IG.appendNew [] usernames) (lookupFile_setFile_self fs filename _)]
      rw [stripFiltered_clean _ happmem]
      rw [appendNew_eq_nil usernames (IG.appendNew [] usernames) hcov]
      rw [List.append_nil, setFile_setFile]
  · have hw := write_unique_file_of_found fs filename usernames lines hfs
    have happmem : ∀ l ∈ IG.appendNew
        ((lines.filter (fun line => strip line ≠ [])).map
          (fun line => strip line)) usernames,
        strip l = l ∧ l ≠ [] :=
      fun l hl => hclean l (mem_appendNew l usernames _ hl).1
    constructor
    · refine ⟨IG.appendNew ((lines.filter
          (fun line => strip line ≠ [])).map (fun line => strip line))
          usernames, ?_, ?_⟩
      · rw [hw, lookupFile_setFile_self]
        simp
      · intro l hl
        simp only [Option.getD_some]
        intro hmem
        rcases mem_appendNew l usernames _ hl with ⟨hus, hnotex⟩
        exact hnotex (mem_stripFiltered lines l (hclean l hus).1
          (hclean l hus).2 hmem)
    · rw [hw]
      rw [write_unique_file_of_found (setFile fs filename _) filename
          usernames _ (lookupFile_setFile_self fs filename _)]
      rw [stripFiltered_append_clean lines _ happmem]
      rw [appendNew_eq_nil usernames
        (((lines.filter (fun line => strip line ≠ [])).map
            (fun line => strip line)) ++
          IG.appendNew ((lines.filter (fun line => strip line ≠ [])).map
            (fun line => strip line)) usernames)
        (fun u hu => by
          rcases appendNew_covered u usernames
              ((lines.filter (fun line => strip line ≠ [])).map
                (fun line => strip line)) hu with hex | happ
          · exact List.mem_append_left _ hex
          · exact List.mem_append_right _ happ)]
      rw [List.append_nil, setFile_setFile]

/-- Witness for C5: merging ["a", "x"] into a file already holding the
line "x". -/
theorem write_unique_file_merge_witness :
    (∀ u ∈ [("a".toList), ("x".toList)], strip u = u ∧ u ≠ []) ∧
    ((∃ t, lookupFile (IG.write_unique_file
          [(("f.txt".toList), [("x".toList)])] ("f.txt".toList)
          [("a".toList), ("x".toList)]) ("f.txt".toList) =
        some ((lookupFile [(("f.txt".toList), [("x".toList)])]
          ("f.txt".toList)).getD [] ++ t) ∧
        ∀ l ∈ t, l ∉ (lookupFile [(("f.txt".toList), [("x".toList)])]
          ("f.txt".toList)).getD []) ∧
      IG.write_unique_file (IG.write_unique_file
          [(("f.txt".toList), [("x".toList)])] ("f.txt".toList)
          [("a".toList), ("x".toList)]) ("f.txt".toList)
          [("a".toList), ("x".toList)] =
        IG.write_unique_file [(("f.txt".toList), [("x".toList)])]
          ("f.txt".toList) [("a".toList), ("x".toList)]) :=
  ⟨by decide,
   write_unique_file_merge [(("f.txt".toList), [("x".toList)])]
     ("f.txt".toList) [("a".toList), ("x".toList)] (by decide)⟩

/-- The checkpoint writes of the worker loop are exactly the non-skipped
pairs, in iteration order, whatever the variant generator produces. -/
theorem workerLoop_fst (checkpoint_name checkpoint_surname : Str)
    (gen : Str → Str → List Str) :
    ∀ ps : List (Str × Str),
      (IG.workerLoop checkpoint_name checkpoint_surname gen ps).1 =
        ps.filter
          (fun p => !IG.skipPair checkpoint_name checkpoint_surname p.1 p.2) := by
  intro ps
  induction ps with
  | nil => rfl
  | cons p ps ih =>
      unfold IG.workerLoop
      by_cases h : IG.skipPair checkpoint_name checkpoint_surname p.1 p.2
      · rw [if_pos h, ih]
        simp [List.filter_cons, h]
      · rw [if_neg h]
        simp [List.filter_cons, h, ih]

/-- Membership in the worker's iteration space is componentwise. -/
theorem mem_pairsOf (names surnames : List Str) (p : Str × Str) :
    p ∈ IG.pairsOf names surnames ↔ p.1 ∈ names ∧ p.2 ∈ surnames := by
  unfold IG.pairsOf
  simp only [List.mem_flatten, List.mem_map]
  constructor
  · rintro ⟨l, ⟨name, hn, rfl⟩, hp⟩
    rcases List.mem_map.mp hp with ⟨surname, hsn, rfl⟩
    exact ⟨hn, hsn⟩
  · rintro ⟨h1, h2⟩
    exact ⟨surnames.map (fun surname => (p.1, surname)),
      ⟨p.1, h1, rfl⟩, List.mem_map.mpr ⟨p.2, h2, by rfl⟩⟩

/-- With a strictly increasing name chunk and a non-decreasing surname
list, the worker's iteration space is non-decreasing in lexicographic
order. -/
theorem pairsOf_pairwise (names surnames : List Str)
    (hnames : names.Pairwise (fun a b => strLt a b = true))
    (hsurnames : surnames.Pairwise (fun a b => strLt a b = true ∨ a = b)) :
    (IG.pairsOf names surnames).Pairwise (fun p q => pairLe p q = true) := by
  induction names with
  | nil => simp [IG.pairsOf]
  | cons n ns ih =>
      rcases List.pairwise_cons.mp hnames with ⟨hn, hns⟩
      have hrest := ih hns
      unfold IG.pairsOf
      simp only [List.map_cons, List.flatten_cons]
      apply List.pairwise_append.mpr
      refine ⟨?_, ?_, ?_⟩
      · apply List.pairwise_map.mpr
        refine List.Pairwise.imp ?_ hsurnames
        intro a b hab
        rcases hab with h | rfl
        · simp [pairLe, h]
        · simp [pairLe]
      · exact hrest
      · intro x hx y hy
        rcases List.mem_map.mp hx with ⟨s, hs, rfl⟩
        have hy1 : y.1 ∈ ns :=
          ((mem_pairsOf ns surnames y).mp hy).1
        simp [pairLe, hn y.1 hy1]

/-- C8 (amended): provided the worker's name chunk is strictly increasing
and its surname list is non-decreasing (both lexicographically), the
sequence of checkpoint values the worker writes is non-decreasing under
lexicographic (name, surname) order — for any variant generator, since
the write sequence does not depend on the generated variants. -/
theorem checkpoint_monotone_of_sorted (names surnames : List Str)
    (checkpoint_name checkpoint_surname : Str)
    (gen : Str → Str → List Str)
    (hnames : names.Pairwise (fun a b => strLt a b = true))
    (hsurnames : surnames.Pairwise (fun a b => strLt a b = true ∨ a = b)) :
    ((IG.workerLoop checkpoint_name checkpoint_surname gen
        (IG.pairsOf names surnames)).1).Pairwise
      (fun p q => pairLe p q = true) := by
  rw [workerLoop_fst]
  exact List.Pairwise.sublist (List.filter_sublist _)
    (pairsOf_pairwise names surnames hnames hsurnames)

/-- Witness for C8's amended theorem on sorted inputs
["a","b"] × ["x","y"] with the spec-modelled variant generator. -/
theorem checkpoint_monotone_of_sorted_witness :
    ((IG.workerLoop [] [] IG.generate_variants
        (IG.pairsOf [("a".toList), ("b".toList)]
          [("x".toList), ("y".toList)])).1).Pairwise
      (fun p q => pairLe p q = true) :=
  checkpoint_monotone_of_sorted [("a".toList), ("b".toList)]
    [("x".toList), ("y".toList)] [] [] IG.generate_variants
    (by decide) (by decide)

end UNG
